import Mathlib

/-!
Verification of the remplate template-parsing core
(`remplate-macros/src/template_parsing.rs` and `remplate-macros/src/lib.rs`).

The document is modelled as a `List Char`; positions are the indices produced
by Rust's `chars().enumerate()` (the code uses these indices both as character
counts and as byte offsets when slicing — the two interpretations agree on
ASCII documents; their divergence on multi-byte documents is analysed below
via `utf8Len` / `utf8Boundaries`).

Iterator skips performed with `Iterator::nth(k)` (which consumes `k + 1`
elements) are modelled with an explicit skip counter so every scanner is a
structurally recursive, kernel-computable function.
-/

namespace Remplate

/-- A half-open index range `[fst, snd)`, as Rust's `Range<usize>`. -/
abbrev Range := Nat × Nat

/-- Rust's `StringMatch { position, length }`. -/
structure StringMatch where
  position : Nat
  length : Nat
deriving DecidableEq

/-- Rust's `StringMatchState` (raw-string-prefix / string-body progress). -/
inductive StringMatchState where
  | matchingFirst (first : StringMatch)
  | matchingSecond (first : StringMatch) (second : Option StringMatch)
deriving DecidableEq

/-- Rust's `StrLiteralParseError`. -/
inductive StrLiteralParseError where
  | noStrFound
  | strHasNoEnd (start : Nat)
deriving DecidableEq

/-- The `for (index, character) in input.chars().enumerate()` loop of
`parse_str_literal`, threaded over the remaining input.  A `break` in the
source is modelled by returning the current state immediately. -/
def parse_str_literal_go : List Char → Nat → Option StringMatchState → Option StringMatchState
  | [], _, st => st
  | c :: rest, idx, st =>
    if c = 'r' then
      match st with
      | none => parse_str_literal_go rest (idx + 1) (some (.matchingFirst ⟨idx, 0⟩))
      | some (.matchingFirst _) =>
          parse_str_literal_go rest (idx + 1) (some (.matchingFirst ⟨idx, 0⟩))
      | some (.matchingSecond f s) =>
          parse_str_literal_go rest (idx + 1) (some (.matchingSecond f s))
    else if c = '#' then
      match st with
      | some (.matchingFirst f) =>
          parse_str_literal_go rest (idx + 1) (some (.matchingFirst ⟨f.position, f.length + 1⟩))
      | some (.matchingSecond f (some s)) =>
          if f.length = s.length + 1 then
            some (.matchingSecond f (some ⟨s.position, s.length + 1⟩))
          else
            parse_str_literal_go rest (idx + 1)
              (some (.matchingSecond f (some ⟨s.position, s.length + 1⟩)))
      | st' => parse_str_literal_go rest (idx + 1) st'
    else if c = '"' then
      match st with
      | some (.matchingFirst f) =>
          parse_str_literal_go rest (idx + 1)
            (some (.matchingSecond ⟨f.position, f.length⟩ none))
      | some (.matchingSecond f none) =>
          if f.length = 0 then
            some (.matchingSecond f (some ⟨idx, 0⟩))
          else
            parse_str_literal_go rest (idx + 1) (some (.matchingSecond f (some ⟨idx, 0⟩)))
      | some (.matchingSecond f (some _)) =>
          parse_str_literal_go rest (idx + 1) (some (.matchingSecond f (some ⟨idx, 0⟩)))
      | none =>
          parse_str_literal_go rest (idx + 1) (some (.matchingSecond ⟨idx, 0⟩ none))
    else
      match st with
      | some (.matchingFirst f) => some (.matchingFirst f)
      | some (.matchingSecond f (some _)) =>
          parse_str_literal_go rest (idx + 1) (some (.matchingSecond f none))
      | some (.matchingSecond f none) =>
          parse_str_literal_go rest (idx + 1) (some (.matchingSecond f none))
      | none => none

/-- The final `match parse_state` of `parse_str_literal`. -/
def str_literal_finish : Option StringMatchState → Except StrLiteralParseError Range
  | none => .error .noStrFound
  | some (.matchingFirst _) => .error .noStrFound
  | some (.matchingSecond f none) => .error (.strHasNoEnd f.position)
  | some (.matchingSecond f (some s)) =>
      if s.length ≠ f.length then .error (.strHasNoEnd f.position)
      else .ok (f.position, s.position + s.length)

/-- Rust's `parse_str_literal`. -/
def parse_str_literal (input : List Char) : Except StrLiteralParseError Range :=
  str_literal_finish (parse_str_literal_go input 0 none)

/-- Rust's `CodeBlockParseError`. -/
inductive CodeBlockParseError where
  | strHasNoEnd (start : Nat)
  | blockHasNoEnd
  | escaped
deriving DecidableEq

/-- The loop of `parse_code_block`, over the remaining input.  Arguments:
remaining input, pending skip count (models `iterator.nth`), current index,
`open_delimiters` counter.  A successful string-literal match of extent
`(s, e)` is skipped by continuing with skip count `e` (the source's
`iterator.nth(str_range.end - 1)` consumes exactly `e` further characters). -/
def parse_code_block_go : List Char → Nat → Nat → Nat → Except CodeBlockParseError Nat
  | [], _, _, _ => .error .blockHasNoEnd
  | _ :: rest, skip + 1, idx, openDelims => parse_code_block_go rest skip (idx + 1) openDelims
  | c :: rest, 0, idx, openDelims =>
    if c = '{' then
      if idx = 1 then .error .escaped
      else if idx > 0 then parse_code_block_go rest 0 (idx + 1) (openDelims + 1)
      else parse_code_block_go rest 0 (idx + 1) openDelims
    else if c = 'r' ∨ c = '"' then
      match parse_str_literal (c :: rest) with
      | .ok range => parse_code_block_go rest range.2 (idx + 1) openDelims
      | .error .noStrFound => parse_code_block_go rest 0 (idx + 1) openDelims
      | .error (.strHasNoEnd s) => .error (.strHasNoEnd (s + idx))
    else if c = '}' then
      if openDelims = 0 then .ok idx
      else parse_code_block_go rest 0 (idx + 1) (openDelims - 1)
    else parse_code_block_go rest 0 (idx + 1) openDelims

/-- Rust's `parse_code_block`: given the input starting at an opening
delimiter, the index of the matching closing delimiter. -/
def parse_code_block (input : List Char) : Except CodeBlockParseError Nat :=
  parse_code_block_go input 0 0 0

/-- Rust's `TemplateParseError`. -/
inductive TemplateParseError where
  | codeBlockHasNoEnd (position : Nat)
  | strHasNoEnd (position : Nat)
deriving DecidableEq

/-- Rust's `ParseResult`. -/
structure ParseResult where
  code_block_fragment_ranges : List Range
  template_fragment_ranges : List Range
deriving DecidableEq

/-- Outcome of `parse_template`: the Rust function can also panic (the
`.last().unwrap()` after the main loop), modelled by `panicked`. -/
inductive ParseOutcome where
  | ok (result : ParseResult)
  | error (e : TemplateParseError)
  | panicked
deriving DecidableEq

/-- Total UTF-8 byte length of a document (Rust's `str::len`). -/
def utf8Len (l : List Char) : Nat := (l.map Char.utf8Size).sum

/-- The `(last_block.end + 1)` / `0` start of the next template fragment,
from the `match result.code_block_fragment_ranges.last()` in the source. -/
def lastEnd (blocks : List Range) : Nat :=
  match blocks.getLast? with
  | some lb => lb.2 + 1
  | none => 0

/-- The main loop of `parse_template`.  Arguments: the whole document (needed
for the final `input.len()`), the remaining input, pending skip count, the
current index, and the two accumulated range vectors. -/
def parse_template_go (doc : List Char) :
    List Char → Nat → Nat → List Range → List Range → ParseOutcome
  | [], _, _, blocks, temps =>
      match blocks.getLast? with
      | none => .panicked
      | some lb => .ok ⟨blocks, temps ++ [(lb.2 + 1, utf8Len doc)]⟩
  | _ :: rest, skip + 1, idx, blocks, temps =>
      parse_template_go doc rest skip (idx + 1) blocks temps
  | c :: rest, 0, idx, blocks, temps =>
      if c = '{' then
        match parse_code_block (c :: rest) with
        | .ok blockEnd =>
            parse_template_go doc rest blockEnd (idx + 1)
              (blocks ++ [(idx + 1, blockEnd + idx)]) (temps ++ [(lastEnd blocks, idx)])
        | .error (.strHasNoEnd s) => .error (.strHasNoEnd (s + idx))
        | .error .blockHasNoEnd => .error (.codeBlockHasNoEnd idx)
        | .error .escaped => parse_template_go doc rest 0 (idx + 1) blocks temps
      else parse_template_go doc rest 0 (idx + 1) blocks temps

/-- Rust's `parse_template`. -/
def parse_template (input : List Char) : ParseOutcome :=
  parse_template_go input input 0 0 [] []

/-! The expression classifier of `remplate-macros/src/lib.rs`
(`TemplateExpression::try_from` and `Formattable::from`). -/

/-- Rust's slicing `&template[range]`, at character granularity. -/
def slice (doc : List Char) (r : Range) : List Char :=
  (doc.drop r.1).take (r.2 - r.1)

/-- Index of the last character satisfying `p` (Rust's `str::rfind`). -/
def rfind (p : Char → Bool) : List Char → Option Nat
  | [] => none
  | c :: rest =>
    match rfind p rest with
    | some k => some (k + 1)
    | none => if p c then some 0 else none

/-- Index of the first character satisfying `p` (Rust's `str::find`). -/
def lfind (p : Char → Bool) : List Char → Option Nat
  | [] => none
  | c :: rest => if p c then some 0 else (lfind p rest).map (· + 1)

/-- Rust's `Formattable` (the `template: &str` field is the document passed
alongside, so only the two ranges are kept). -/
structure Formattable where
  expression_range : Range
  formatting_range : Option Range
deriving DecidableEq

/-- Rust's `Formattable::from((template, expression_range))`. -/
def Formattable.fromTemplate (doc : List Char) (expression_range : Range) : Formattable :=
  let format_expression := slice doc expression_range
  match lfind (· = ':') format_expression with
  | some position =>
      ⟨(expression_range.1, expression_range.1 + position),
       some (expression_range.1 + position, expression_range.2)⟩
  | none => ⟨expression_range, none⟩

/-- Rust's `TemplateExpression` (again without the shared `&str` field). -/
inductive TemplateExpression where
  | codeBlock (code_block_range : Range)
  | codeBlockWithFormattable (code_block_range : Range) (f : Formattable)
  | formattable (f : Formattable)
deriving DecidableEq

/-- Whether Rust's `str::trim` yields the empty string. -/
def trimIsEmpty (s : List Char) : Bool := s.all (·.isWhitespace)

/-- Rust's `TemplateExpression::try_from((template, code_block_range))`. -/
def TemplateExpression.tryFrom (doc : List Char) (code_block_range : Range) :
    Except Unit TemplateExpression :=
  let code_block := slice doc code_block_range
  match rfind (· = ';') code_block with
  | some position =>
      if trimIsEmpty (code_block.drop (position + 1)) then
        .ok (.codeBlock (code_block_range.1, code_block_range.1 + position + 1))
      else
        .ok (.codeBlockWithFormattable
          (code_block_range.1, code_block_range.1 + position + 1)
          (Formattable.fromTemplate doc
            (code_block_range.1 + position + 1, code_block_range.2)))
  | none =>
      if trimIsEmpty code_block then .error ()
      else .ok (.formattable (Formattable.fromTemplate doc code_block_range))

/-! The template-path global of `remplate-macros/src/lib.rs`
(`static TEMPLATE_PATH: OnceLock<PathBuf>` and its use in `derive_remplate`).
The process-wide `OnceLock` is modelled by explicit state passing; `set`
follows its std contract: it stores the value and returns `Ok` when the cell
is empty, and returns `Err` leaving the old value when it is already set. -/

def STATE_ALREADY_SET_MESSAGE : String := "Internal state should be set only once"

/-- Model of `OnceLock::set`: new cell contents and whether the set succeeded. -/
def onceLockSet (cell : Option String) (value : String) : Option String × Bool :=
  match cell with
  | none => (some value, true)
  | some old => (some old, false)

/-- Outcome of the `canonicalize_path` match inside `derive_remplate`. -/
inductive DeriveOutcome where
  | proceeds (cell : Option String) (path : String)
  | compileError
  | panics (msg : String)
deriving DecidableEq

/-- The `match canonicalize_path(template_path)` step of `derive_remplate`:
on a successfully canonicalized path it does
`TEMPLATE_PATH.set(path).expect(STATE_ALREADY_SET_MESSAGE)` and continues
with the stored path; on a canonicalization error it returns a compile-error
diagnostic. -/
def derive_remplate_set_path (cell : Option String) (canonicalized : Except String String) :
    DeriveOutcome :=
  match canonicalized with
  | .ok path =>
      match onceLockSet cell path with
      | (cell', true) => .proceeds cell' path
      | (_, false) => .panics STATE_ALREADY_SET_MESSAGE
  | .error _ => .compileError

/-! Auxiliary notions used only to state claims (not part of the source):
UTF-8 byte boundaries, and the reconstruction of a document from the
returned ranges. -/

/-- Cumulative UTF-8 byte offsets of the positions of a document. -/
def utf8Boundaries_go : List Char → Nat → List Nat
  | [], acc => [acc]
  | c :: rest, acc => acc :: utf8Boundaries_go rest (acc + c.utf8Size)

/-- The set of byte offsets that lie on a character boundary of the document. -/
def utf8Boundaries (l : List Char) : List Nat := utf8Boundaries_go l 0

/-- Concatenation, in document order, of the literal-text ranges (verbatim)
and the expression-block ranges with their `{` and `}` delimiters restored. -/
def reconstruct (doc : List Char) : List Range → List Range → List Char
  | [], _ => []
  | t :: ts, [] => slice doc t ++ reconstruct doc ts []
  | t :: ts, b :: bs => slice doc t ++ '{' :: (slice doc b ++ '}' :: reconstruct doc ts bs)

/-- Collapse of each doubled opening delimiter to a single one, as the
spec's escape-collapsing reads. -/
def collapseEscapes : List Char → List Char
  | '{' :: '{' :: rest => '{' :: collapseEscapes rest
  | c :: rest => c :: collapseEscapes rest
  | [] => []

/-- Reconstruction exactly as the claim states it: literal ranges with each
doubled opening delimiter collapsed, block ranges with delimiters restored. -/
def reconstructCollapsed (doc : List Char) : List Range → List Range → List Char
  | [], _ => []
  | t :: ts, [] => collapseEscapes (slice doc t) ++ reconstructCollapsed doc ts []
  | t :: ts, b :: bs =>
      collapseEscapes (slice doc t) ++ '{' :: (slice doc b ++ '}' :: reconstructCollapsed doc ts bs)

/-! Concrete documents used by the claims. -/

/-- The document `"a{{b"`. -/
def docEscape : List Char := ['a', '{', '{', 'b']

/-- The document `"a{{{x}"`. -/
def docTripleBrace : List Char := ['a', '{', '{', '{', 'x', '}']

/-- The document `"{é}"` (a two-byte character inside a block). -/
def docMultibyte : List Char := ['{', 'é', '}']

/-- The document `"<h1>{let x = {15;}{x}</h1>"`. -/
def docUnclosed : List Char :=
  ['<', 'h', '1', '>', '{', 'l', 'e', 't', ' ', 'x', ' ', '=', ' ', '{', '1', '5',
   ';', '}', '{', 'x', '}', '<', '/', 'h', '1', '>']

/-- The document `"{let x = "15;}"` (unterminated string literal). -/
def docUnclosedStr : List Char :=
  ['{', 'l', 'e', 't', ' ', 'x', ' ', '=', ' ', '"', '1', '5', ';', '}']

/-- The document `"{"a;b"}"`: the only statement separator of the block lies
inside a string literal. -/
def docSemiInStr : List Char := ['{', '"', 'a', ';', 'b', '"', '}']

/-- The document `"<h1>{let x = {1};}{x}</h1>"`. -/
def docNested : List Char :=
  ['<', 'h', '1', '>', '{', 'l', 'e', 't', ' ', 'x', ' ', '=', ' ', '{', '1', '}',
   ';', '}', '{', 'x', '}', '<', '/', 'h', '1', '>']

/-- A character with no role in the block matcher: not a delimiter and not a
possible string-literal start. -/
def isPlain (c : Char) : Bool := ¬(c = '{' ∨ c = '}' ∨ c = 'r' ∨ c = '"')

/-- Block interiors made of plain characters and balanced same-kind delimiter
pairs (no string literals). -/
inductive BalancedPlain : List Char → Prop
  | nil : BalancedPlain []
  | plain (c : Char) (w : List Char) : isPlain c = true → BalancedPlain w →
      BalancedPlain (c :: w)
  | nest (u v : List Char) : BalancedPlain u → BalancedPlain v →
      BalancedPlain ('{' :: (u ++ '}' :: v))

/-- Step of the block matcher over a nested opening delimiter (at an index
where the doubled-delimiter check cannot fire). -/
theorem parse_code_block_go_open_cons (rest : List Char) (idx openDelims : Nat)
    (h1 : idx ≠ 1) (h2 : 0 < idx) :
    parse_code_block_go ('{' :: rest) 0 idx openDelims =
      parse_code_block_go rest 0 (idx + 1) (openDelims + 1) := by
  simp [parse_code_block_go, h1, h2]

/-- Step of the block matcher over a closing delimiter with a positive
nesting counter. -/
theorem parse_code_block_go_close_cons (rest : List Char) (idx openDelims : Nat) :
    parse_code_block_go ('}' :: rest) 0 idx (openDelims + 1) =
      parse_code_block_go rest 0 (idx + 1) openDelims := by
  simp [parse_code_block_go]

/-- The block matcher returns the index of a closing delimiter reached with
nesting counter zero. -/
theorem parse_code_block_go_close_ok (rest : List Char) (idx : Nat) :
    parse_code_block_go ('}' :: rest) 0 idx 0 = .ok idx := by
  simp [parse_code_block_go]

/-- One plain character is stepped over by the block matcher. -/
theorem parse_code_block_go_plain_cons {c : Char} (hc : isPlain c = true)
    (rest : List Char) (idx openDelims : Nat) :
    parse_code_block_go (c :: rest) 0 idx openDelims =
      parse_code_block_go rest 0 (idx + 1) openDelims := by
  simp only [isPlain, decide_not, Bool.not_eq_true', decide_eq_false_iff_not] at hc
  push_neg at hc
  obtain ⟨h1, h2, h3, h4⟩ := hc
  simp [parse_code_block_go, h1, h2, h3, h4]

/-- A balanced-plain segment is traversed by the block matcher without
changing the nesting counter, provided it starts at index at least 2 (so the
doubled-delimiter check at index 1 cannot fire). -/
theorem parse_code_block_go_balanced {w : List Char} (hw : BalancedPlain w) :
    ∀ (rest : List Char) (idx openDelims : Nat), 2 ≤ idx →
      parse_code_block_go (w ++ rest) 0 idx openDelims =
        parse_code_block_go rest 0 (idx + w.length) openDelims := by
  induction hw with
  | nil => intro rest idx d _; simp
  | plain c w hc _ ih =>
    intro rest idx d hidx
    rw [List.cons_append, parse_code_block_go_plain_cons hc, ih rest (idx + 1) d (by omega)]
    simp only [List.length_cons]
    ring_nf
  | nest u v _ _ ihu ihv =>
    intro rest idx d hidx
    have h1 : ('{' :: (u ++ '}' :: v)) ++ rest = '{' :: (u ++ ('}' :: (v ++ rest))) := by
      simp
    rw [h1, parse_code_block_go_open_cons _ _ _ (by omega) (by omega),
      ihu ('}' :: (v ++ rest)) (idx + 1) (d + 1) (by omega),
      parse_code_block_go_close_cons,
      ihv rest (idx + 1 + u.length + 1) d (by omega)]
    simp only [List.length_cons, List.length_append]
    ring_nf

/-- The string-literal scanner steps over any non-quote character while
matching the body of a zero-fence literal. -/
theorem parse_str_literal_go_body_cons {c : Char} (hc : c ≠ '"') (rest : List Char)
    (idx : Nat) (f : StringMatch) :
    parse_str_literal_go (c :: rest) idx (some (.matchingSecond f none)) =
      parse_str_literal_go rest (idx + 1) (some (.matchingSecond f none)) := by
  by_cases hr : c = 'r'
  · subst hr; simp [parse_str_literal_go]
  · by_cases hh : c = '#'
    · subst hh; simp [parse_str_literal_go]
    · simp [parse_str_literal_go, hr, hh, hc]

/-- The string-literal scanner steps over a whole quote-free body. -/
theorem parse_str_literal_go_body (xs : List Char) (h : '"' ∉ xs) :
    ∀ (tail : List Char) (idx : Nat) (f : StringMatch),
      parse_str_literal_go (xs ++ tail) idx (some (.matchingSecond f none)) =
        parse_str_literal_go tail (idx + xs.length) (some (.matchingSecond f none)) := by
  induction xs with
  | nil => intro tail idx f; simp
  | cons c rest ih =>
    intro tail idx f
    have hc : c ≠ '"' := fun hceq => h (hceq ▸ List.mem_cons_self ..)
    rw [List.cons_append, parse_str_literal_go_body_cons hc,
      ih (fun hm => h (List.mem_cons_of_mem _ hm)) tail (idx + 1) f]
    simp only [List.length_cons]
    ring_nf

/-- A plain quoted literal with a quote-free body is recognized with extent
from its opening quote up to (exclusive) its closing quote. -/
theorem parse_str_literal_quote (s : List Char) (h : '"' ∉ s) (tail : List Char) :
    parse_str_literal ('"' :: (s ++ '"' :: tail)) = .ok (0, s.length + 1) := by
  unfold parse_str_literal
  have h1 : parse_str_literal_go ('"' :: (s ++ '"' :: tail)) 0 none =
      parse_str_literal_go (s ++ '"' :: tail) 1 (some (.matchingSecond ⟨0, 0⟩ none)) := by
    simp [parse_str_literal_go]
  rw [h1, parse_str_literal_go_body s h ('"' :: tail) 1 ⟨0, 0⟩]
  have h2 : parse_str_literal_go ('"' :: tail) (1 + s.length)
        (some (.matchingSecond ⟨0, 0⟩ none)) =
      some (.matchingSecond ⟨0, 0⟩ (some ⟨1 + s.length, 0⟩)) := by
    simp [parse_str_literal_go]
  rw [h2]
  simp [str_literal_finish]
  ring_nf

/-- The block matcher consumes exactly `xs.length` pending skip characters. -/
theorem parse_code_block_go_skip (xs : List Char) :
    ∀ (rest : List Char) (idx openDelims : Nat),
      parse_code_block_go (xs ++ rest) xs.length idx openDelims =
        parse_code_block_go rest 0 (idx + xs.length) openDelims := by
  induction xs with
  | nil => intro rest idx d; simp
  | cons c rest' ih =>
    intro rest idx d
    simp only [List.length_cons, List.cons_append]
    rw [show parse_code_block_go (c :: (rest' ++ rest)) (rest'.length + 1) idx d =
        parse_code_block_go (rest' ++ rest) rest'.length (idx + 1) d from rfl,
      ih rest (idx + 1) d]
    ring_nf

/-- On a quoted literal with quote-free body, the block matcher skips the
whole literal extent (its content is inert to delimiter logic). -/
theorem parse_code_block_go_quote_skip (s : List Char) (h : '"' ∉ s) (after : List Char)
    (idx openDelims : Nat) :
    parse_code_block_go ('"' :: (s ++ '"' :: after)) 0 idx openDelims =
      parse_code_block_go after 0 (idx + (s.length + 2)) openDelims := by
  have hlit := parse_str_literal_quote s h after
  have hstep : parse_code_block_go ('"' :: (s ++ '"' :: after)) 0 idx openDelims =
      parse_code_block_go (s ++ '"' :: after) (s.length + 1) (idx + 1) openDelims := by
    simp [parse_code_block_go, hlit]
  rw [hstep, show s ++ '"' :: after = (s ++ ['"']) ++ after by simp,
    show s.length + 1 = (s ++ ['"']).length by simp,
    parse_code_block_go_skip (s ++ ['"']) after (idx + 1) openDelims]
  simp only [List.length_append, List.length_cons, List.length_nil]
  ring_nf

/-- The block matcher steps over a run of plain characters. -/
theorem parse_code_block_go_plain_append (xs : List Char)
    (hxs : ∀ c ∈ xs, isPlain c = true) :
    ∀ (rest : List Char) (idx openDelims : Nat),
      parse_code_block_go (xs ++ rest) 0 idx openDelims =
        parse_code_block_go rest 0 (idx + xs.length) openDelims := by
  induction xs with
  | nil => intro rest idx d; simp
  | cons c rest' ih =>
    intro rest idx d
    rw [List.cons_append, parse_code_block_go_plain_cons (hxs c (List.mem_cons_self ..)),
      ih (fun d' hd' => hxs d' (List.mem_cons_of_mem _ hd')) rest (idx + 1) d]
    simp only [List.length_cons]
    ring_nf

/-- Entering a block: the matcher starts just after the opening delimiter. -/
theorem parse_code_block_first (l : List Char) :
    parse_code_block ('{' :: l) = parse_code_block_go l 0 1 0 := by
  simp [parse_code_block, parse_code_block_go]

/-- The string-literal scanner begins a raw-literal attempt on `r`. -/
theorem parse_str_literal_go_r_start (rest : List Char) :
    parse_str_literal_go ('r' :: rest) 0 none =
      parse_str_literal_go rest 1 (some (.matchingFirst ⟨0, 0⟩)) := by
  simp [parse_str_literal_go]

/-- Counting the opening fence: each `#` increments the first match length. -/
theorem parse_str_literal_go_open_fence (n : Nat) :
    ∀ (tail : List Char) (idx p k : Nat),
      parse_str_literal_go (List.replicate n '#' ++ tail) idx (some (.matchingFirst ⟨p, k⟩)) =
        parse_str_literal_go tail (idx + n) (some (.matchingFirst ⟨p, k + n⟩)) := by
  induction n with
  | zero => intro tail idx p k; simp
  | succ n ih =>
    intro tail idx p k
    rw [List.replicate_succ, List.cons_append,
      show parse_str_literal_go ('#' :: (List.replicate n '#' ++ tail)) idx
          (some (.matchingFirst ⟨p, k⟩)) =
        parse_str_literal_go (List.replicate n '#' ++ tail) (idx + 1)
          (some (.matchingFirst ⟨p, k + 1⟩)) from by simp [parse_str_literal_go],
      ih tail (idx + 1) p (k + 1)]
    ring_nf

/-- The opening quote after the fence enters the body state. -/
theorem parse_str_literal_go_quote_from_first (rest : List Char) (idx p k : Nat) :
    parse_str_literal_go ('"' :: rest) idx (some (.matchingFirst ⟨p, k⟩)) =
      parse_str_literal_go rest (idx + 1) (some (.matchingSecond ⟨p, k⟩ none)) := by
  simp [parse_str_literal_go]

/-- A quote inside the body of a positive-fence raw literal starts a close
candidate (it does not terminate the literal). -/
theorem parse_str_literal_go_quote_candidate (rest : List Char) (idx p n : Nat)
    (hn : n ≠ 0) :
    parse_str_literal_go ('"' :: rest) idx (some (.matchingSecond ⟨p, n⟩ none)) =
      parse_str_literal_go rest (idx + 1)
        (some (.matchingSecond ⟨p, n⟩ (some ⟨idx, 0⟩))) := by
  simp [parse_str_literal_go, hn]

/-- Fence characters of a close candidate are counted while still short of
the opening fence count. -/
theorem parse_str_literal_go_partial_fence (m : Nat) :
    ∀ (tail : List Char) (idx p n q k : Nat), k + m < n →
      parse_str_literal_go (List.replicate m '#' ++ tail) idx
          (some (.matchingSecond ⟨p, n⟩ (some ⟨q, k⟩))) =
        parse_str_literal_go tail (idx + m)
          (some (.matchingSecond ⟨p, n⟩ (some ⟨q, k + m⟩))) := by
  induction m with
  | zero => intro tail idx p n q k _; simp
  | succ m ih =>
    intro tail idx p n q k h
    have hne : ¬(n = k + 1) := by omega
    rw [List.replicate_succ, List.cons_append,
      show parse_str_literal_go ('#' :: (List.replicate m '#' ++ tail)) idx
          (some (.matchingSecond ⟨p, n⟩ (some ⟨q, k⟩))) =
        parse_str_literal_go (List.replicate m '#' ++ tail) (idx + 1)
          (some (.matchingSecond ⟨p, n⟩ (some ⟨q, k + 1⟩))) from by
        simp [parse_str_literal_go, hne],
      ih tail (idx + 1) p n q (k + 1) (by omega)]
    ring_nf

/-- A non-fence, non-quote character aborts a close candidate: the second
match is reset and body scanning continues. -/
theorem parse_str_literal_go_reset {c : Char} (hq : c ≠ '"') (hh : c ≠ '#')
    (hr : c ≠ 'r') (rest : List Char) (idx : Nat) (f s : StringMatch) :
    parse_str_literal_go (c :: rest) idx (some (.matchingSecond f (some s))) =
      parse_str_literal_go rest (idx + 1) (some (.matchingSecond f none)) := by
  simp [parse_str_literal_go, hq, hh, hr]

/-- An exact-count closing fence terminates the scan (the `break` in the
source) with the second match completed. -/
theorem parse_str_literal_go_close_fence (j : Nat) :
    ∀ (tail : List Char) (idx p n q k : Nat), k + j = n → 1 ≤ j →
      parse_str_literal_go (List.replicate j '#' ++ tail) idx
          (some (.matchingSecond ⟨p, n⟩ (some ⟨q, k⟩))) =
        some (.matchingSecond ⟨p, n⟩ (some ⟨q, n⟩)) := by
  induction j with
  | zero => intro tail idx p n q k _ h1; omega
  | succ j ih =>
    intro tail idx p n q k h hj
    rw [List.replicate_succ, List.cons_append]
    by_cases hcase : n = k + 1
    · have hj0 : j = 0 := by omega
      subst hj0
      rw [show parse_str_literal_go ('#' :: (List.replicate 0 '#' ++ tail)) idx
          (some (.matchingSecond ⟨p, n⟩ (some ⟨q, k⟩))) =
          some (.matchingSecond ⟨p, n⟩ (some ⟨q, k + 1⟩)) from by
        simp [parse_str_literal_go, hcase]]
      have hk : k + 1 = n := by omega
      rw [hk]
    · rw [show parse_str_literal_go ('#' :: (List.replicate j '#' ++ tail)) idx
          (some (.matchingSecond ⟨p, n⟩ (some ⟨q, k⟩))) =
        parse_str_literal_go (List.replicate j '#' ++ tail) (idx + 1)
          (some (.matchingSecond ⟨p, n⟩ (some ⟨q, k + 1⟩))) from by
        simp [parse_str_literal_go, hcase],
        ih tail (idx + 1) p n q (k + 1) (by omega) (by omega)]

/-- A quote followed by exactly `n` fence characters, met in the body state
of an `n`-fence raw literal, completes the literal. -/
theorem parse_str_literal_go_exact_close (tail : List Char) (idx p n : Nat) (hn : 1 ≤ n) :
    parse_str_literal_go ('"' :: (List.replicate n '#' ++ tail)) idx
        (some (.matchingSecond ⟨p, n⟩ none)) =
      some (.matchingSecond ⟨p, n⟩ (some ⟨idx, n⟩)) := by
  rw [parse_str_literal_go_quote_candidate _ _ _ _ (by omega),
    parse_str_literal_go_close_fence n tail (idx + 1) p n idx 0 (by omega) hn]

/-- A close candidate with `m < n` fence characters, aborted by an ordinary
character, does not terminate the literal: scanning continues in the body
state. -/
theorem parse_str_literal_go_failed_candidate (m : Nat) (tail : List Char)
    (idx p n : Nat) {c : Char} (hmn : m < n) (hq : c ≠ '"') (hh : c ≠ '#') (hr : c ≠ 'r') :
    parse_str_literal_go ('"' :: (List.replicate m '#' ++ (c :: tail))) idx
        (some (.matchingSecond ⟨p, n⟩ none)) =
      parse_str_literal_go tail (idx + m + 2) (some (.matchingSecond ⟨p, n⟩ none)) := by
  rw [parse_str_literal_go_quote_candidate _ _ _ _ (by omega),
    parse_str_literal_go_partial_fence m (c :: tail) (idx + 1) p n idx 0 (by omega),
    parse_str_literal_go_reset hq hh hr tail (idx + 1 + m) ⟨p, n⟩ ⟨idx, 0 + m⟩]
  ring_nf

/-- Dropping one more element after a cons-shaped drop. -/
theorem drop_eq_cons_succ {α : Type} {l : List α} {idx : Nat} {c : α} {rest : List α}
    (h : l.drop idx = c :: rest) : l.drop (idx + 1) = rest := by
  have h2 : (l.drop idx).drop 1 = l.drop (idx + 1) := List.drop_drop 1 idx l
  rw [← h2, h]
  rfl

/-- The element at the head of a cons-shaped drop. -/
theorem getElem?_of_drop_cons {α : Type} {l : List α} {idx : Nat} {c : α} {rest : List α}
    (h : l.drop idx = c :: rest) : l[idx]? = some c := by
  have h2 : (l.drop idx)[0]? = l[idx + 0]? := List.getElem?_drop l idx 0
  rw [h] at h2
  simpa using h2.symm

/-- Helper for C8: a `CodeBlockHasNoEnd` error of the template scanner
carries the index of an opening delimiter of the document. -/
theorem parse_template_go_block_err_pos (doc : List Char) :
    ∀ (suffix : List Char) (skip idx : Nat) (blocks temps : List Range) (p : Nat),
      doc.drop idx = suffix →
      parse_template_go doc suffix skip idx blocks temps = .error (.codeBlockHasNoEnd p) →
      doc[p]? = some '{' := by
  intro suffix
  induction suffix with
  | nil =>
    intro skip idx blocks temps p _ h
    cases hbl : blocks.getLast? <;> simp [parse_template_go, hbl] at h
  | cons c rest ih =>
    intro skip idx blocks temps p hdrop h
    have hrest : doc.drop (idx + 1) = rest := drop_eq_cons_succ hdrop
    match skip with
    | skip + 1 => exact ih skip (idx + 1) blocks temps p hrest h
    | 0 =>
      by_cases hc : c = '{'
      · subst hc
        cases hpcb : parse_code_block ('{' :: rest) with
        | ok blockEnd =>
          rw [show parse_template_go doc ('{' :: rest) 0 idx blocks temps =
              parse_template_go doc rest blockEnd (idx + 1)
                (blocks ++ [(idx + 1, blockEnd + idx)]) (temps ++ [(lastEnd blocks, idx)]) from by
            simp [parse_template_go, hpcb]] at h
          exact ih blockEnd (idx + 1) _ _ p hrest h
        | error e =>
          cases e with
          | strHasNoEnd s =>
            rw [show parse_template_go doc ('{' :: rest) 0 idx blocks temps =
                .error (.strHasNoEnd (s + idx)) from by simp [parse_template_go, hpcb]] at h
            simp at h
          | blockHasNoEnd =>
            rw [show parse_template_go doc ('{' :: rest) 0 idx blocks temps =
                .error (.codeBlockHasNoEnd idx) from by simp [parse_template_go, hpcb]] at h
            have hp : idx = p := by simpa using h
            exact hp ▸ getElem?_of_drop_cons hdrop
          | escaped =>
            rw [show parse_template_go doc ('{' :: rest) 0 idx blocks temps =
                parse_template_go doc rest 0 (idx + 1) blocks temps from by
              simp [parse_template_go, hpcb]] at h
            exact ih 0 (idx + 1) blocks temps p hrest h
      · rw [show parse_template_go doc (c :: rest) 0 idx blocks temps =
            parse_template_go doc rest 0 (idx + 1) blocks temps from by
          simp [parse_template_go, hc]] at h
        exact ih 0 (idx + 1) blocks temps p hrest h

/-- The first-match position stored in a scanner state points at an `r` or a
quote of the input (the start of the literal being matched). -/
def FirstPosOk (inp : List Char) : Option StringMatchState → Prop
  | none => True
  | some (.matchingFirst f) => inp[f.position]? = some 'r'
  | some (.matchingSecond f _) => inp[f.position]? = some 'r' ∨ inp[f.position]? = some '"'

/-- The scanner loop preserves `FirstPosOk`. -/
theorem parse_str_literal_go_first_pos (inp : List Char) :
    ∀ (suffix : List Char) (idx : Nat) (st : Option StringMatchState),
      inp.drop idx = suffix → FirstPosOk inp st →
      FirstPosOk inp (parse_str_literal_go suffix idx st) := by
  intro suffix
  induction suffix with
  | nil =>
    intro idx st _ hst
    simpa [parse_str_literal_go] using hst
  | cons c rest ih =>
    intro idx st hdrop hst
    have hrest : inp.drop (idx + 1) = rest := drop_eq_cons_succ hdrop
    have hcidx : inp[idx]? = some c := getElem?_of_drop_cons hdrop
    by_cases hr : c = 'r'
    · subst hr
      cases st with
      | none =>
        rw [show parse_str_literal_go ('r' :: rest) idx none =
            parse_str_literal_go rest (idx + 1) (some (.matchingFirst ⟨idx, 0⟩)) from by
          simp [parse_str_literal_go]]
        exact ih (idx + 1) _ hrest hcidx
      | some sms =>
        cases sms with
        | matchingFirst f =>
          rw [show parse_str_literal_go ('r' :: rest) idx (some (.matchingFirst f)) =
              parse_str_literal_go rest (idx + 1) (some (.matchingFirst ⟨idx, 0⟩)) from by
            simp [parse_str_literal_go]]
          exact ih (idx + 1) _ hrest hcidx
        | matchingSecond f s =>
          rw [show parse_str_literal_go ('r' :: rest) idx (some (.matchingSecond f s)) =
              parse_str_literal_go rest (idx + 1) (some (.matchingSecond f s)) from by
            simp [parse_str_literal_go]]
          exact ih (idx + 1) _ hrest hst
    · by_cases hh : c = '#'
      · subst hh
        cases st with
        | none =>
          rw [show parse_str_literal_go ('#' :: rest) idx none =
              parse_str_literal_go rest (idx + 1) none from by simp [parse_str_literal_go]]
          exact ih (idx + 1) _ hrest trivial
        | some sms =>
          cases sms with
          | matchingFirst f =>
            rw [show parse_str_literal_go ('#' :: rest) idx (some (.matchingFirst f)) =
                parse_str_literal_go rest (idx + 1)
                  (some (.matchingFirst ⟨f.position, f.length + 1⟩)) from by
              simp [parse_str_literal_go]]
            exact ih (idx + 1) _ hrest hst
          | matchingSecond f s =>
            cases s with
            | none =>
              rw [show parse_str_literal_go ('#' :: rest) idx
                    (some (.matchingSecond f none)) =
                  parse_str_literal_go rest (idx + 1) (some (.matchingSecond f none)) from by
                simp [parse_str_literal_go]]
              exact ih (idx + 1) _ hrest hst
            | some snd =>
              by_cases hb : f.length = snd.length + 1
              · rw [show parse_str_literal_go ('#' :: rest) idx
                      (some (.matchingSecond f (some snd))) =
                    some (.matchingSecond f (some ⟨snd.position, snd.length + 1⟩)) from by
                  simp [parse_str_literal_go, hb]]
                exact hst
              · rw [show parse_str_literal_go ('#' :: rest) idx
                      (some (.matchingSecond f (some snd))) =
                    parse_str_literal_go rest (idx + 1)
                      (some (.matchingSecond f (some ⟨snd.position, snd.length + 1⟩))) from by
                  simp [parse_str_literal_go, hb]]
                exact ih (idx + 1) _ hrest hst
      · by_cases hq : c = '"'
        · subst hq
          cases st with
          | none =>
            rw [show parse_str_literal_go ('"' :: rest) idx none =
                parse_str_literal_go rest (idx + 1)
                  (some (.matchingSecond ⟨idx, 0⟩ none)) from by simp [parse_str_literal_go]]
            exact ih (idx + 1) _ hrest (Or.inr hcidx)
          | some sms =>
            cases sms with
            | matchingFirst f =>
              rw [show parse_str_literal_go ('"' :: rest) idx (some (.matchingFirst f)) =
                  parse_str_literal_go rest (idx + 1)
                    (some (.matchingSecond ⟨f.position, f.length⟩ none)) from by
                simp [parse_str_literal_go]]
              exact ih (idx + 1) _ hrest (Or.inl hst)
            | matchingSecond f s =>
              cases s with
              | none =>
                by_cases hf : f.length = 0
                · rw [show parse_str_literal_go ('"' :: rest) idx
                        (some (.matchingSecond f none)) =
                      some (.matchingSecond f (some ⟨idx, 0⟩)) from by
                    simp [parse_str_literal_go, hf]]
                  exact hst
                · rw [show parse_str_literal_go ('"' :: rest) idx
                        (some (.matchingSecond f none)) =
                      parse_str_literal_go rest (idx + 1)
                        (some (.matchingSecond f (some ⟨idx, 0⟩))) from by
                    simp [parse_str_literal_go, hf]]
                  exact ih (idx + 1) _ hrest hst
              | some snd =>
                rw [show parse_str_literal_go ('"' :: rest) idx
                      (some (.matchingSecond f (some snd))) =
                    parse_str_literal_go rest (idx + 1)
                      (some (.matchingSecond f (some ⟨idx, 0⟩))) from by
                  simp [parse_str_literal_go]]
                exact ih (idx + 1) _ hrest hst
        · cases st with
          | none =>
            rw [show parse_str_literal_go (c :: rest) idx none = none from by
              simp [parse_str_literal_go, hr, hh, hq]]
            trivial
          | some sms =>
            cases sms with
            | matchingFirst f =>
              rw [show parse_str_literal_go (c :: rest) idx (some (.matchingFirst f)) =
                  some (.matchingFirst f) from by simp [parse_str_literal_go, hr, hh, hq]]
              exact hst
            | matchingSecond f s =>
              cases s with
              | none =>
                rw [show parse_str_literal_go (c :: rest) idx
                      (some (.matchingSecond f none)) =
                    parse_str_literal_go rest (idx + 1)
                      (some (.matchingSecond f none)) from by
                  simp [parse_str_literal_go, hr, hh, hq]]
                exact ih (idx + 1) _ hrest hst
              | some snd =>
                rw [show parse_str_literal_go (c :: rest) idx
                      (some (.matchingSecond f (some snd))) =
                    parse_str_literal_go rest (idx + 1)
                      (some (.matchingSecond f none)) from by
                  simp [parse_str_literal_go, hr, hh, hq]]
                exact ih (idx + 1) _ hrest hst

/-- A `StrHasNoEnd` error of the string-literal scanner carries the index of
an `r` or a quote of its input. -/
theorem parse_str_literal_strHasNoEnd_pos (inp : List Char) (s0 : Nat)
    (h : parse_str_literal inp = .error (.strHasNoEnd s0)) :
    inp[s0]? = some 'r' ∨ inp[s0]? = some '"' := by
  have hinv := parse_str_literal_go_first_pos inp inp 0 none (by simp) trivial
  unfold parse_str_literal at h
  cases hfin : parse_str_literal_go inp 0 none with
  | none => rw [hfin] at h; simp [str_literal_finish] at h
  | some sms =>
    rw [hfin] at h hinv
    cases sms with
    | matchingFirst f => simp [str_literal_finish] at h
    | matchingSecond f s =>
      cases s with
      | none =>
        have hp : f.position = s0 := by simpa [str_literal_finish] using h
        exact hp ▸ hinv
      | some snd =>
        by_cases hlen : snd.length ≠ f.length
        · have hp : f.position = s0 := by simpa [str_literal_finish, hlen] using h
          exact hp ▸ hinv
        · simp [str_literal_finish, hlen] at h

/-- A `StrHasNoEnd` error of the block matcher carries the absolute index of
an `r` or a quote of the block input. -/
theorem parse_code_block_go_strHasNoEnd_pos (input : List Char) :
    ∀ (suffix : List Char) (skip idx d s : Nat),
      input.drop idx = suffix →
      parse_code_block_go suffix skip idx d = .error (.strHasNoEnd s) →
      input[s]? = some 'r' ∨ input[s]? = some '"' := by
  intro suffix
  induction suffix with
  | nil => intro skip idx d s _ h; simp [parse_code_block_go] at h
  | cons c rest ih =>
    intro skip idx d s hdrop h
    have hrest : input.drop (idx + 1) = rest := drop_eq_cons_succ hdrop
    match skip with
    | skip + 1 => exact ih skip (idx + 1) d s hrest h
    | 0 =>
      by_cases hc : c = '{'
      · subst hc
        by_cases h1 : idx = 1
        · rw [show parse_code_block_go ('{' :: rest) 0 idx d = .error .escaped from by
            simp [parse_code_block_go, h1]] at h
          simp at h
        · by_cases h2 : idx > 0
          · rw [show parse_code_block_go ('{' :: rest) 0 idx d =
                parse_code_block_go rest 0 (idx + 1) (d + 1) from by
              simp [parse_code_block_go, h1, h2]] at h
            exact ih 0 (idx + 1) (d + 1) s hrest h
          · rw [show parse_code_block_go ('{' :: rest) 0 idx d =
                parse_code_block_go rest 0 (idx + 1) d from by
              simp [parse_code_block_go, h1, h2]] at h
            exact ih 0 (idx + 1) d s hrest h
      · by_cases hrq : c = 'r' ∨ c = '"'
        · cases hpsl : parse_str_literal (c :: rest) with
          | ok range =>
            rw [show parse_code_block_go (c :: rest) 0 idx d =
                parse_code_block_go rest range.2 (idx + 1) d from by
              simp [parse_code_block_go, hc, hrq, hpsl]] at h
            exact ih range.2 (idx + 1) d s hrest h
          | error e =>
            cases e with
            | noStrFound =>
              rw [show parse_code_block_go (c :: rest) 0 idx d =
                  parse_code_block_go rest 0 (idx + 1) d from by
                simp [parse_code_block_go, hc, hrq, hpsl]] at h
              exact ih 0 (idx + 1) d s hrest h
            | strHasNoEnd s0 =>
              rw [show parse_code_block_go (c :: rest) 0 idx d =
                  .error (.strHasNoEnd (s0 + idx)) from by
                simp [parse_code_block_go, hc, hrq, hpsl]] at h
              have hs : s0 + idx = s := by simpa using h
              have hpos := parse_str_literal_strHasNoEnd_pos (c :: rest) s0 hpsl
              rw [← hdrop, List.getElem?_drop] at hpos
              rw [← hs, Nat.add_comm s0 idx]
              exact hpos
        · by_cases hcl : c = '}'
          · subst hcl
            by_cases hd : d = 0
            · rw [show parse_code_block_go ('}' :: rest) 0 idx d = .ok idx from by
                simp [parse_code_block_go, hd]] at h
              simp at h
            · rw [show parse_code_block_go ('}' :: rest) 0 idx d =
                  parse_code_block_go rest 0 (idx + 1) (d - 1) from by
                simp [parse_code_block_go, hd]] at h
              exact ih 0 (idx + 1) (d - 1) s hrest h
          · rw [show parse_code_block_go (c :: rest) 0 idx d =
                parse_code_block_go rest 0 (idx + 1) d from by
              simp [parse_code_block_go, hc, hrq, hcl]] at h
            exact ih 0 (idx + 1) d s hrest h

/-- Helper for C8: a `StrHasNoEnd` error of the template scanner carries the
absolute index of an `r` or a quote of the document (the literal's start). -/
theorem parse_template_go_str_err_pos (doc : List Char) :
    ∀ (suffix : List Char) (skip idx : Nat) (blocks temps : List Range) (p : Nat),
      doc.drop idx = suffix →
      parse_template_go doc suffix skip idx blocks temps = .error (.strHasNoEnd p) →
      doc[p]? = some 'r' ∨ doc[p]? = some '"' := by
  intro suffix
  induction suffix with
  | nil =>
    intro skip idx blocks temps p _ h
    cases hbl : blocks.getLast? <;> simp [parse_template_go, hbl] at h
  | cons c rest ih =>
    intro skip idx blocks temps p hdrop h
    have hrest : doc.drop (idx + 1) = rest := drop_eq_cons_succ hdrop
    match skip with
    | skip + 1 => exact ih skip (idx + 1) blocks temps p hrest h
    | 0 =>
      by_cases hc : c = '{'
      · subst hc
        cases hpcb : parse_code_block ('{' :: rest) with
        | ok blockEnd =>
          rw [show parse_template_go doc ('{' :: rest) 0 idx blocks temps =
              parse_template_go doc rest blockEnd (idx + 1)
                (blocks ++ [(idx + 1, blockEnd + idx)]) (temps ++ [(lastEnd blocks, idx)]) from by
            simp [parse_template_go, hpcb]] at h
          exact ih blockEnd (idx + 1) _ _ p hrest h
        | error e =>
          cases e with
          | strHasNoEnd s =>
            rw [show parse_template_go doc ('{' :: rest) 0 idx blocks temps =
                .error (.strHasNoEnd (s + idx)) from by simp [parse_template_go, hpcb]] at h
            have hs : s + idx = p := by simpa using h
            have hpos := parse_code_block_go_strHasNoEnd_pos ('{' :: rest) ('{' :: rest)
              0 0 0 s (by simp) hpcb
            rw [← hdrop, List.getElem?_drop] at hpos
            rw [← hs, Nat.add_comm s idx]
            exact hpos
          | blockHasNoEnd =>
            rw [show parse_template_go doc ('{' :: rest) 0 idx blocks temps =
                .error (.codeBlockHasNoEnd idx) from by simp [parse_template_go, hpcb]] at h
            simp at h
          | escaped =>
            rw [show parse_template_go doc ('{' :: rest) 0 idx blocks temps =
                parse_template_go doc rest 0 (idx + 1) blocks temps from by
              simp [parse_template_go, hpcb]] at h
            exact ih 0 (idx + 1) blocks temps p hrest h
      · rw [show parse_template_go doc (c :: rest) 0 idx blocks temps =
            parse_template_go doc rest 0 (idx + 1) blocks temps from by
          simp [parse_template_go, hc]] at h
        exact ih 0 (idx + 1) blocks temps p hrest h

/-- An `ok` result of the block matcher is the index of a closing delimiter
of the block input. -/
theorem parse_code_block_go_ok_close (input : List Char) :
    ∀ (suffix : List Char) (skip idx d n : Nat),
      input.drop idx = suffix →
      parse_code_block_go suffix skip idx d = .ok n →
      input[n]? = some '}' := by
  intro suffix
  induction suffix with
  | nil => intro skip idx d n _ h; simp [parse_code_block_go] at h
  | cons c rest ih =>
    intro skip idx d n hdrop h
    have hrest : input.drop (idx + 1) = rest := drop_eq_cons_succ hdrop
    match skip with
    | skip + 1 => exact ih skip (idx + 1) d n hrest h
    | 0 =>
      by_cases hc : c = '{'
      · subst hc
        by_cases h1 : idx = 1
        · rw [show parse_code_block_go ('{' :: rest) 0 idx d = .error .escaped from by
            simp [parse_code_block_go, h1]] at h
          simp at h
        · by_cases h2 : idx > 0
          · rw [show parse_code_block_go ('{' :: rest) 0 idx d =
                parse_code_block_go rest 0 (idx + 1) (d + 1) from by
              simp [parse_code_block_go, h1, h2]] at h
            exact ih 0 (idx + 1) (d + 1) n hrest h
          · rw [show parse_code_block_go ('{' :: rest) 0 idx d =
                parse_code_block_go rest 0 (idx + 1) d from by
              simp [parse_code_block_go, h1, h2]] at h
            exact ih 0 (idx + 1) d n hrest h
      · by_cases hrq : c = 'r' ∨ c = '"'
        · cases hpsl : parse_str_literal (c :: rest) with
          | ok range =>
            rw [show parse_code_block_go (c :: rest) 0 idx d =
                parse_code_block_go rest range.2 (idx + 1) d from by
              simp [parse_code_block_go, hc, hrq, hpsl]] at h
            exact ih range.2 (idx + 1) d n hrest h
          | error e =>
            cases e with
            | noStrFound =>
              rw [show parse_code_block_go (c :: rest) 0 idx d =
                  parse_code_block_go rest 0 (idx + 1) d from by
                simp [parse_code_block_go, hc, hrq, hpsl]] at h
              exact ih 0 (idx + 1) d n hrest h
            | strHasNoEnd s0 =>
              rw [show parse_code_block_go (c :: rest) 0 idx d =
                  .error (.strHasNoEnd (s0 + idx)) from by
                simp [parse_code_block_go, hc, hrq, hpsl]] at h
              simp at h
        · by_cases hcl : c = '}'
          · subst hcl
            by_cases hd : d = 0
            · rw [show parse_code_block_go ('}' :: rest) 0 idx d = .ok idx from by
                simp [parse_code_block_go, hd]] at h
              have hn : idx = n := by simpa using h
              exact hn ▸ getElem?_of_drop_cons hdrop
            · rw [show parse_code_block_go ('}' :: rest) 0 idx d =
                  parse_code_block_go rest 0 (idx + 1) (d - 1) from by
                simp [parse_code_block_go, hd]] at h
              exact ih 0 (idx + 1) (d - 1) n hrest h
          · rw [show parse_code_block_go (c :: rest) 0 idx d =
                parse_code_block_go rest 0 (idx + 1) d from by
              simp [parse_code_block_go, hc, hrq, hcl]] at h
            exact ih 0 (idx + 1) d n hrest h

/-- Appending a literal range and a block range to equal-length accumulators
appends one literal-block chunk to the reconstruction. -/
theorem reconstruct_append_pair (doc : List Char) :
    ∀ (ts bs : List Range) (t b : Range), ts.length = bs.length →
      reconstruct doc (ts ++ [t]) (bs ++ [b]) =
        reconstruct doc ts bs ++ (slice doc t ++ '{' :: (slice doc b ++ ['}'])) := by
  intro ts
  induction ts with
  | nil =>
    intro bs t b h
    have hbs : bs = [] := List.length_eq_zero.mp h.symm
    subst hbs
    simp [reconstruct]
  | cons t0 ts ih =>
    intro bs t b h
    cases bs with
    | nil => simp at h
    | cons b0 bs =>
      simp only [List.cons_append, reconstruct, List.append_eq]
      rw [ih bs t b (by simpa using h)]
      simp

/-- Appending a final literal range to equal-length accumulators appends its
slice to the reconstruction. -/
theorem reconstruct_append_last (doc : List Char) :
    ∀ (ts bs : List Range) (t : Range), ts.length = bs.length →
      reconstruct doc (ts ++ [t]) bs = reconstruct doc ts bs ++ slice doc t := by
  intro ts
  induction ts with
  | nil =>
    intro bs t h
    have hbs : bs = [] := List.length_eq_zero.mp h.symm
    subst hbs
    simp [reconstruct]
  | cons t0 ts ih =>
    intro bs t h
    cases bs with
    | nil => simp at h
    | cons b0 bs =>
      simp only [List.cons_append, reconstruct, List.append_eq]
      rw [ih bs t (by simpa using h)]
      simp

/-- A prefix followed by the slice up to a later position is the longer
prefix. -/
theorem take_slice (doc : List Char) (s e : Nat) (h : s ≤ e) :
    doc.take s ++ slice doc (s, e) = doc.take e := by
  have he : e = s + (e - s) := by omega
  rw [show slice doc (s, e) = (doc.drop s).take (e - s) from rfl, ← List.take_add]
  rw [← he]

/-- Consuming the known character at the end of a prefix. -/
theorem take_cons_char (doc : List Char) (idx : Nat) {c : Char} (h : doc[idx]? = some c)
    (l : List Char) : doc.take idx ++ (c :: l) = doc.take (idx + 1) ++ l := by
  rw [List.take_succ, h]
  simp

/-- A document is at most as long in characters as in UTF-8 bytes. -/
theorem length_le_utf8Len (l : List Char) : l.length ≤ utf8Len l := by
  induction l with
  | nil => simp [utf8Len]
  | cons c rest ih =>
    have hpos := Char.utf8Size_pos c
    simp only [utf8Len, List.map_cons, List.sum_cons, List.length_cons] at ih ⊢
    omega

/-- The round-trip invariant of the template scanner: whenever the ranges
accumulated so far tile the document prefix up to the last consumed block
end, a successful scan yields ranges whose interleaved concatenation is the
whole document. -/
theorem parse_template_go_reconstruct (doc : List Char) :
    ∀ (suffix : List Char) (skip idx : Nat) (blocks temps : List Range) (r : ParseResult),
      doc.drop idx = suffix →
      temps.length = blocks.length →
      reconstruct doc temps blocks = doc.take (lastEnd blocks) →
      lastEnd blocks ≤ idx + skip →
      parse_template_go doc suffix skip idx blocks temps = .ok r →
      reconstruct doc r.template_fragment_ranges r.code_block_fragment_ranges = doc := by
  intro suffix
  induction suffix with
  | nil =>
    intro skip idx blocks temps r _ hlen hrec _ h
    cases hbl : blocks.getLast? with
    | none =>
      rw [show parse_template_go doc [] skip idx blocks temps = .panicked from by
        simp [parse_template_go, hbl]] at h
      simp at h
    | some lb =>
      rw [show parse_template_go doc [] skip idx blocks temps =
          .ok ⟨blocks, temps ++ [(lb.2 + 1, utf8Len doc)]⟩ from by
        simp [parse_template_go, hbl]] at h
      have hr : r = ⟨blocks, temps ++ [(lb.2 + 1, utf8Len doc)]⟩ := by
        cases h; rfl
      subst hr
      show reconstruct doc (temps ++ [(lb.2 + 1, utf8Len doc)]) blocks = doc
      rw [reconstruct_append_last doc temps blocks _ hlen, hrec,
        show lastEnd blocks = lb.2 + 1 from by simp [lastEnd, hbl]]
      have hlen2 : (doc.drop (lb.2 + 1)).length ≤ utf8Len doc - (lb.2 + 1) := by
        have := length_le_utf8Len doc
        simp only [List.length_drop]
        omega
      rw [show slice doc (lb.2 + 1, utf8Len doc) = doc.drop (lb.2 + 1) from by
        rw [show slice doc (lb.2 + 1, utf8Len doc) =
            (doc.drop (lb.2 + 1)).take (utf8Len doc - (lb.2 + 1)) from rfl]
        exact List.take_of_length_le hlen2]
      exact List.take_append_drop _ doc
  | cons c rest ih =>
    intro skip idx blocks temps r hdrop hlen hrec hle h
    have hrest : doc.drop (idx + 1) = rest := drop_eq_cons_succ hdrop
    match skip with
    | skip + 1 => exact ih skip (idx + 1) blocks temps r hrest hlen hrec (by omega) h
    | 0 =>
      by_cases hc : c = '{'
      · subst hc
        cases hpcb : parse_code_block ('{' :: rest) with
        | ok blockEnd =>
          rw [show parse_template_go doc ('{' :: rest) 0 idx blocks temps =
              parse_template_go doc rest blockEnd (idx + 1)
                (blocks ++ [(idx + 1, blockEnd + idx)])
                (temps ++ [(lastEnd blocks, idx)]) from by
            simp [parse_template_go, hpcb]] at h
          have hopen : doc[idx]? = some '{' := getElem?_of_drop_cons hdrop
          have hclose0 : ('{' :: rest)[blockEnd]? = some '}' :=
            parse_code_block_go_ok_close ('{' :: rest) ('{' :: rest) 0 0 0 blockEnd
              (by simp) hpcb
          have hclose : doc[blockEnd + idx]? = some '}' := by
            rw [← hdrop, List.getElem?_drop] at hclose0
            rw [Nat.add_comm blockEnd idx]
            exact hclose0
          have hbe : blockEnd ≠ 0 := by
            intro h0
            rw [h0] at hclose0
            simp at hclose0
          have hle0 : lastEnd blocks ≤ idx := by omega
          have hlast : lastEnd (blocks ++ [(idx + 1, blockEnd + idx)]) = blockEnd + idx + 1 := by
            simp [lastEnd, List.getLast?_concat]
          have hrec' : reconstruct doc (temps ++ [(lastEnd blocks, idx)])
              (blocks ++ [(idx + 1, blockEnd + idx)]) =
              doc.take (lastEnd (blocks ++ [(idx + 1, blockEnd + idx)])) := by
            rw [reconstruct_append_pair doc temps blocks _ _ hlen, hrec, hlast,
              ← List.append_assoc, take_slice doc (lastEnd blocks) idx hle0,
              take_cons_char doc idx hopen,
              ← List.append_assoc, take_slice doc (idx + 1) (blockEnd + idx) (by omega),
              take_cons_char doc (blockEnd + idx) hclose]
            simp
          exact ih blockEnd (idx + 1) _ _ r hrest (by simp [hlen]) hrec' (by omega) h
        | error e =>
          cases e with
          | strHasNoEnd s =>
            rw [show parse_template_go doc ('{' :: rest) 0 idx blocks temps =
                .error (.strHasNoEnd (s + idx)) from by simp [parse_template_go, hpcb]] at h
            simp at h
          | blockHasNoEnd =>
            rw [show parse_template_go doc ('{' :: rest) 0 idx blocks temps =
                .error (.codeBlockHasNoEnd idx) from by simp [parse_template_go, hpcb]] at h
            simp at h
          | escaped =>
            rw [show parse_template_go doc ('{' :: rest) 0 idx blocks temps =
                parse_template_go doc rest 0 (idx + 1) blocks temps from by
              simp [parse_template_go, hpcb]] at h
            exact ih 0 (idx + 1) blocks temps r hrest hlen hrec (by omega) h
      · rw [show parse_template_go doc (c :: rest) 0 idx blocks temps =
            parse_template_go doc rest 0 (idx + 1) blocks temps from by
          simp [parse_template_go, hc]] at h
        exact ih 0 (idx + 1) blocks temps r hrest hlen hrec (by omega) h

/-- When `rfind` finds nothing, no element satisfies the predicate. -/
theorem rfind_eq_none (p : Char → Bool) :
    ∀ (l : List Char), rfind p l = none → ∀ c ∈ l, p c = false := by
  intro l
  induction l with
  | nil => intro _ c hc; simp at hc
  | cons c0 rest ih =>
    intro h c hc
    cases hr : rfind p rest with
    | some k =>
      rw [show rfind p (c0 :: rest) = some (k + 1) from by simp [rfind, hr]] at h
      simp at h
    | none =>
      by_cases hp : p c0 = true
      · rw [show rfind p (c0 :: rest) = some 0 from by simp [rfind, hr, hp]] at h
        simp at h
      · cases hc with
        | head => simpa using hp
        | tail _ hm => exact ih hr c hm

/-- The index returned by `rfind` holds a matching character and is the last
such index. -/
theorem rfind_spec (p : Char → Bool) :
    ∀ (l : List Char) (k : Nat), rfind p l = some k →
      (∃ c, l[k]? = some c ∧ p c = true) ∧
        ∀ q, k < q → ∀ d, l[q]? = some d → p d = false := by
  intro l
  induction l with
  | nil => intro k h; simp [rfind] at h
  | cons c0 rest ih =>
    intro k h
    cases hr : rfind p rest with
    | some k' =>
      rw [show rfind p (c0 :: rest) = some (k' + 1) from by simp [rfind, hr]] at h
      have hk : k = k' + 1 := by simpa using h.symm
      subst hk
      obtain ⟨⟨c, hc, hpc⟩, hmax⟩ := ih k' hr
      refine ⟨⟨c, by simpa using hc, hpc⟩, ?_⟩
      intro q hq d hd
      cases q with
      | zero => omega
      | succ q' => exact hmax q' (by omega) d (by simpa using hd)
    | none =>
      by_cases hp : p c0 = true
      · rw [show rfind p (c0 :: rest) = some 0 from by simp [rfind, hr, hp]] at h
        have hk : k = 0 := by simpa using h.symm
        subst hk
        refine ⟨⟨c0, by simp, hp⟩, ?_⟩
        intro q hq d hd
        cases q with
        | zero => omega
        | succ q' =>
          exact rfind_eq_none p rest hr d (List.getElem?_mem (by simpa using hd))
      · rw [show rfind p (c0 :: rest) = none from by simp [rfind, hr, hp]] at h
        simp at h

/-- The index returned by `lfind` holds a matching character and is the
first such index. -/
theorem lfind_spec (p : Char → Bool) :
    ∀ (l : List Char) (k : Nat), lfind p l = some k →
      (∃ c, l[k]? = some c ∧ p c = true) ∧
        ∀ q, q < k → ∀ d, l[q]? = some d → p d = false := by
  intro l
  induction l with
  | nil => intro k h; simp [lfind] at h
  | cons c0 rest ih =>
    intro k h
    by_cases hp : p c0 = true
    · rw [show lfind p (c0 :: rest) = some 0 from by simp [lfind, hp]] at h
      have hk : k = 0 := by simpa using h.symm
      subst hk
      exact ⟨⟨c0, by simp, hp⟩, fun q hq => by omega⟩
    · rw [show lfind p (c0 :: rest) = (lfind p rest).map (· + 1) from by
        simp [lfind, hp]] at h
      cases hr : lfind p rest with
      | none => rw [hr] at h; simp at h
      | some k' =>
        rw [hr] at h
        have hk : k = k' + 1 := by simpa using h.symm
        subst hk
        obtain ⟨⟨c, hc, hpc⟩, hmin⟩ := ih k' hr
        refine ⟨⟨c, by simpa using hc, hpc⟩, ?_⟩
        intro q hq d hd
        cases q with
        | zero =>
          have hdc : d = c0 := by simpa using hd.symm
          subst hdc
          simpa using hp
        | succ q' => exact hmin q' (by omega) d (by simpa using hd)

/-! Claim theorems. -/

/-- C2 (code bug): the claim says scanning `"a{{b"` succeeds with zero
expression blocks and one literal fragment rendering `"a{b"`.  The code
instead treats the second delimiter of the doubled pair as a fresh block
open (`Escaped` only advances the outer scan by one character), so
`parse_template` fails with `CodeBlockHasNoEnd` at position 2. -/
theorem c2_escape_bug :
    parse_template docEscape = .error (.codeBlockHasNoEnd 2) := rfl

/-- C4 (code bug): the claim says every range endpoint is a byte offset on a
character boundary, in particular for documents with multi-byte characters.
The scanner uses `chars().enumerate()` indices as byte offsets: on `"{é}"`
(bytes `7B C3 A9 7D`, character boundaries 0, 1, 3, 4) it returns the block
range `(1, 2)` whose endpoint 2 falls inside the two-byte `é`. -/
theorem c4_multibyte_bug :
    parse_template docMultibyte = .ok ⟨[(1, 2)], [(0, 0), (3, 4)]⟩ ∧
      2 ∉ utf8Boundaries docMultibyte := by
  exact ⟨rfl, by decide⟩

/-- C5: when a block interior consists of plain text and balanced nested
same-kind delimiter pairs, the expression-block matcher returns the offset
of the outer matching closing delimiter, not an inner one; the delimiter
that starts the call (index 0) is not counted by the nesting counter, which
is why the match lands at offset `w.length + 1`, past every nested pair.
(The interior must not begin with `{`, or the doubled-delimiter check takes
over.) -/
theorem c5_nesting (w rest : List Char) (hw : BalancedPlain w)
    (hhead : w.head? ≠ some '{') :
    parse_code_block ('{' :: (w ++ '}' :: rest)) = .ok (w.length + 1) := by
  have h0 : parse_code_block_go ('{' :: (w ++ '}' :: rest)) 0 0 0 =
      parse_code_block_go (w ++ '}' :: rest) 0 1 0 := by
    simp [parse_code_block_go]
  unfold parse_code_block
  rw [h0]
  cases hw with
  | nil => simpa using parse_code_block_go_close_ok rest 1
  | plain c w' hc hw' =>
    rw [List.cons_append, parse_code_block_go_plain_cons hc,
      parse_code_block_go_balanced hw' ('}' :: rest) 2 0 (by omega),
      parse_code_block_go_close_ok]
    have harith : 2 + w'.length = (c :: w').length + 1 := by simp; omega
    rw [harith]
  | nest u v hu hv => simp at hhead

/-- The interior `"let x = {1};"` of the first block of `docNested`. -/
def c5Interior : List Char := ['l', 'e', 't', ' ', 'x', ' ', '=', ' ', '{', '1', '}', ';']

/-- The text after the first block of `docNested`. -/
def c5Rest : List Char := ['x', '}', '<', '/', 'h', '1', '>']

/-- The interior `"let x = {1};"` is a balanced-plain segment. -/
theorem c5_interior_balanced : BalancedPlain c5Interior :=
  .plain 'l' _ (by decide) (.plain 'e' _ (by decide) (.plain 't' _ (by decide)
    (.plain ' ' _ (by decide) (.plain 'x' _ (by decide) (.plain ' ' _ (by decide)
    (.plain '=' _ (by decide) (.plain ' ' _ (by decide)
    (.nest ['1'] [';'] (.plain '1' [] (by decide) .nil)
      (.plain ';' [] (by decide) .nil)))))))))

set_option maxHeartbeats 1000000 in
/-- Witness for C5 at the document `"<h1>{let x = {1};}{x}</h1>"`: the first
block (opened at offset 4, interior `"let x = {1};"` containing the nested
pair around `1`) closes at the outer brace, relative offset 13; the whole
scan records block interiors `(5, 17)` and `(19, 20)`. -/
theorem c5_nesting_witness :
    parse_code_block ('{' :: (c5Interior ++ '}' :: c5Rest)) = .ok (c5Interior.length + 1) ∧
      parse_template docNested = .ok ⟨[(5, 17), (19, 20)], [(0, 4), (18, 18), (21, 26)]⟩ :=
  ⟨c5_nesting c5Interior c5Rest c5_interior_balanced (by decide), rfl⟩

/-- C6: a closing delimiter inside a string literal does not close the
block.  For a block of shape `{` plain-run `"body"` plain-run `}` where the
quote-free body may contain closing delimiters, the matcher skips the whole
literal extent as inert text and returns the first closing delimiter outside
the literal (at offset `a.length + s.length + b.length + 3`). -/
theorem c6_string_immunity (a s b rest : List Char)
    (ha : ∀ c ∈ a, isPlain c = true) (hb : ∀ c ∈ b, isPlain c = true)
    (hs : '"' ∉ s) (_hclose : '}' ∈ s) :
    parse_code_block ('{' :: (a ++ '"' :: (s ++ '"' :: (b ++ '}' :: rest)))) =
      .ok (a.length + s.length + b.length + 3) := by
  rw [parse_code_block_first,
    parse_code_block_go_plain_append a ha _ 1 0,
    parse_code_block_go_quote_skip s hs (b ++ '}' :: rest) (1 + a.length) 0,
    parse_code_block_go_plain_append b hb ('}' :: rest) _ 0,
    parse_code_block_go_close_ok]
  congr 1
  omega

/-- The prefix `"let s = "` of the C6 example block interior. -/
def c6A : List Char := ['l', 'e', 't', ' ', 's', ' ', '=', ' ']

/-- The string-literal body `"a}b"` of the C6 example (contains `}`). -/
def c6S : List Char := ['a', '}', 'b']

/-- The suffix `";"` of the C6 example block interior. -/
def c6B : List Char := [';']

/-- Witness for C6 at the block `"{let s = \"a}b\";}"`: the brace inside the
quotes is skipped and the block closes at the final brace, offset 15. -/
theorem c6_string_immunity_witness :
    parse_code_block ('{' :: (c6A ++ '"' :: (c6S ++ '"' :: (c6B ++ '}' :: [])))) =
      .ok (c6A.length + c6S.length + c6B.length + 3) :=
  c6_string_immunity c6A c6S c6B [] (by decide) (by decide) (by decide) (by decide)

/-- A quote-free body consumed with no input left keeps the body state (used
for the unterminated-literal half of C7). -/
theorem parse_str_literal_go_body_end (xs : List Char) (h : '"' ∉ xs) (idx : Nat)
    (f : StringMatch) :
    parse_str_literal_go xs idx (some (.matchingSecond f none)) =
      some (.matchingSecond f none) := by
  have hb := parse_str_literal_go_body xs h [] idx f
  simpa [parse_str_literal_go] using hb

/-- C7: a raw literal opened with `n` fence characters is terminated only by
a quote followed by exactly `n` fence characters.  A close candidate with
`m < n` fence characters does not terminate it and scanning continues to the
exact-fence close; and if the input ends after such a failed candidate, the
scanner reports the string literal unterminated at the literal's start. -/
theorem c7_fence_matching (n m : Nat) (b1 b2 rest : List Char) (c : Char)
    (hmn : m < n) (hb1 : '"' ∉ b1) (hb2 : '"' ∉ b2)
    (hq : c ≠ '"') (hh : c ≠ '#') (hr : c ≠ 'r') :
    parse_str_literal
        ('r' :: (List.replicate n '#' ++ ('"' :: (b1 ++ ('"' :: (List.replicate m '#' ++
          (c :: (b2 ++ ('"' :: (List.replicate n '#' ++ rest)))))))))) =
      .ok (0, b1.length + m + b2.length + 2 * n + 4) ∧
    parse_str_literal
        ('r' :: (List.replicate n '#' ++ ('"' :: (b1 ++ ('"' :: (List.replicate m '#' ++
          (c :: b2))))))) =
      .error (.strHasNoEnd 0) := by
  constructor
  · unfold parse_str_literal
    rw [parse_str_literal_go_r_start, parse_str_literal_go_open_fence n _ 1 0 0]
    simp only [Nat.zero_add]
    rw [parse_str_literal_go_quote_from_first _ (1 + n) 0 n,
      parse_str_literal_go_body b1 hb1 _ (1 + n + 1) ⟨0, n⟩,
      parse_str_literal_go_failed_candidate m _ (1 + n + 1 + b1.length) 0 n hmn hq hh hr,
      parse_str_literal_go_body b2 hb2 _ (1 + n + 1 + b1.length + m + 2) ⟨0, n⟩,
      parse_str_literal_go_exact_close rest (1 + n + 1 + b1.length + m + 2 + b2.length) 0 n
        (by omega)]
    simp [str_literal_finish]
    omega
  · unfold parse_str_literal
    rw [parse_str_literal_go_r_start, parse_str_literal_go_open_fence n _ 1 0 0]
    simp only [Nat.zero_add]
    rw [parse_str_literal_go_quote_from_first _ (1 + n) 0 n,
      parse_str_literal_go_body b1 hb1 _ (1 + n + 1) ⟨0, n⟩,
      parse_str_literal_go_failed_candidate m b2 (1 + n + 1 + b1.length) 0 n hmn hq hh hr,
      parse_str_literal_go_body_end b2 hb2 (1 + n + 1 + b1.length + m + 2) ⟨0, n⟩]
    simp [str_literal_finish]

/-- Witness for C7 with a two-fence raw literal `r##"a"#xb"##`: the one-fence
candidate inside does not close it (the literal extends to offset 11), and
the same text truncated after the failed candidate reports
`StrHasNoEnd` at offset 0. -/
theorem c7_fence_matching_witness :
    parse_str_literal
        ('r' :: (List.replicate 2 '#' ++ ('"' :: (['a'] ++ ('"' :: (List.replicate 1 '#' ++
          ('x' :: (['b'] ++ ('"' :: (List.replicate 2 '#' ++ [])))))))))) =
      .ok (0, 11) ∧
    parse_str_literal
        ('r' :: (List.replicate 2 '#' ++ ('"' :: (['a'] ++ ('"' :: (List.replicate 1 '#' ++
          ('x' :: ['b']))))))) =
      .error (.strHasNoEnd 0) :=
  c7_fence_matching 2 1 ['a'] ['b'] [] 'x' (by decide) (by decide) (by decide)
    (by decide) (by decide) (by decide)

set_option maxHeartbeats 1000000 in
/-- C8: `"<h1>{let x = {15;}{x}</h1>"` reports `CodeBlockHasNoEnd` at offset
4, the first opening brace; `"{let x = \"15;}"` reports `StrHasNoEnd` at
offset 9, the opening quote; and in general a `CodeBlockHasNoEnd` error
carries the absolute offset of an opening delimiter of the document, while a
`StrHasNoEnd` error carries the absolute offset of the start (`r` or quote)
of the unterminated literal.  The scan returns the first error encountered
in its single left-to-right pass. -/
theorem c8_error_positions :
    parse_template docUnclosed = .error (.codeBlockHasNoEnd 4) ∧
    parse_template docUnclosedStr = .error (.strHasNoEnd 9) ∧
    (∀ (doc : List Char) (p : Nat), parse_template doc = .error (.codeBlockHasNoEnd p) →
      doc[p]? = some '{') ∧
    (∀ (doc : List Char) (p : Nat), parse_template doc = .error (.strHasNoEnd p) →
      doc[p]? = some 'r' ∨ doc[p]? = some '"') :=
  ⟨rfl, rfl,
    fun doc p h => parse_template_go_block_err_pos doc doc 0 0 [] [] p (by simp) h,
    fun doc p h => parse_template_go_str_err_pos doc doc 0 0 [] [] p (by simp) h⟩

set_option maxHeartbeats 1000000 in
/-- Witness for C8: the general position facts applied at the two example
documents (offset 4 holds `{`; offset 9 holds the quote). -/
theorem c8_error_positions_witness :
    docUnclosed[4]? = some '{' ∧
      (docUnclosedStr[9]? = some 'r' ∨ docUnclosedStr[9]? = some '"') :=
  ⟨c8_error_positions.2.2.1 docUnclosed 4 rfl,
   c8_error_positions.2.2.2 docUnclosedStr 9 rfl⟩

/-- C10: storing the canonicalized template path in the process-wide
`TEMPLATE_PATH` cell succeeds on the first `derive_remplate` invocation, and
a second invocation whose path canonicalizes successfully panics with
"Internal state should be set only once" rather than producing a
compile-error diagnostic. -/
theorem c10_oncelock_panic (prev path : String) :
    derive_remplate_set_path (some prev) (.ok path) =
        .panics "Internal state should be set only once" ∧
      derive_remplate_set_path none (.ok path) = .proceeds (some path) path ∧
      DeriveOutcome.panics STATE_ALREADY_SET_MESSAGE ≠ .compileError :=
  ⟨rfl, rfl, by simp⟩

/-- Helper for C3: with no opening delimiter in the remaining input, the main
loop never records a code block, so the trailing
`code_block_fragment_ranges.last().unwrap()` is reached with an empty vector. -/
theorem parse_template_go_no_brace (doc : List Char) :
    ∀ (suffix : List Char) (skip idx : Nat) (temps : List Range),
      (∀ c ∈ suffix, c ≠ '{') →
      parse_template_go doc suffix skip idx [] temps = .panicked := by
  intro suffix
  induction suffix with
  | nil => intro skip idx temps _; rfl
  | cons c rest ih =>
    intro skip idx temps h
    match skip with
    | skip + 1 => exact ih skip (idx + 1) temps fun d hd => h d (List.mem_cons_of_mem _ hd)
    | 0 =>
      have hc : ¬(c = '{') := h c (List.mem_cons_self ..)
      simp only [parse_template_go, if_neg hc]
      exact ih 0 (idx + 1) temps fun d hd => h d (List.mem_cons_of_mem _ hd)

/-- C3 (code bug): the claim says a document with no true block open scans
successfully, ending with a literal range to the end of the document.  On
any document with no opening delimiter at all, the code instead panics: the
`.last().unwrap()` after the loop is evaluated with an empty
`code_block_fragment_ranges`. -/
theorem c3_no_block_panics (doc : List Char) (h : '{' ∉ doc) :
    parse_template doc = .panicked :=
  parse_template_go_no_brace doc doc 0 0 [] fun _c hc hceq => h (hceq ▸ hc)

/-- Witness for C3 at the document `"abc"`. -/
theorem c3_no_block_panics_witness :
    parse_template ['a', 'b', 'c'] = .panicked :=
  c3_no_block_panics ['a', 'b', 'c'] (by decide)

/-- C1 counterexample: on `"a{{{x}"` the scan succeeds, but re-concatenating
the ranges with each doubled opening delimiter collapsed to a single one (as
the claim states) does not reconstruct the document. -/
theorem c1_collapse_counterexample :
    parse_template docTripleBrace = .ok ⟨[(4, 5)], [(0, 3), (6, 6)]⟩ ∧
      reconstructCollapsed docTripleBrace [(0, 3), (6, 6)] [(4, 5)] ≠ docTripleBrace :=
  ⟨rfl, by decide⟩

/-- C1 (amended): for every document the scan accepts, concatenating in
document order the literal-text ranges taken verbatim (no escape collapsing)
and the expression-block ranges with their `{` and `}` delimiters restored
reconstructs the original document exactly. -/
theorem c1_roundtrip_verbatim (doc : List Char) (r : ParseResult)
    (h : parse_template doc = .ok r) :
    reconstruct doc r.template_fragment_ranges r.code_block_fragment_ranges = doc :=
  parse_template_go_reconstruct doc doc 0 0 [] [] r (by simp) rfl
    (by simp [reconstruct, lastEnd]) (by simp [lastEnd]) h

/-- The document `"<h1>{x}</h1>"`. -/
def docSimple : List Char := ['<', 'h', '1', '>', '{', 'x', '}', '<', '/', 'h', '1', '>']

/-- Witness for C1 at `"<h1>{x}</h1>"`. -/
theorem c1_roundtrip_verbatim_witness :
    reconstruct docSimple [(0, 4), (7, 12)] [(5, 6)] = docSimple :=
  c1_roundtrip_verbatim docSimple ⟨[(5, 6)], [(0, 4), (7, 12)]⟩ rfl

/-- C9 counterexample: in the block `"a;b"` the only semicolon lies inside
the string literal (whose extent, per the repository's own scanner, runs
from index 0 to the closing quote at index 4), yet `try_from` picks it as
the statement split point, ending the statement range at absolute index 4. -/
theorem c9_literal_separator_counterexample :
    TemplateExpression.tryFrom docSemiInStr (1, 6) =
        .ok (.codeBlockWithFormattable (1, 4) ⟨(4, 6), none⟩) ∧
      parse_str_literal (slice docSemiInStr (1, 6)) = .ok (0, 4) ∧
      (slice docSemiInStr (1, 6)).get? 2 = some ';' :=
  ⟨rfl, rfl, rfl⟩

/-- C9 (amended): the classifier splits statement from value at the last
semicolon of the raw block text (`str::rfind`), and value from format-spec
at the first colon of the raw value text (`str::find`), with no
string-literal awareness: separators inside string literals are treated like
any others. -/
theorem c9_raw_split :
    (∀ (doc : List Char) (range stmt : Range) (f : Formattable),
      TemplateExpression.tryFrom doc range = .ok (.codeBlockWithFormattable stmt f) →
      stmt.1 = range.1 ∧
        ∃ p, stmt.2 = range.1 + p + 1 ∧ (slice doc range)[p]? = some ';' ∧
          ∀ q, p < q → ∀ d, (slice doc range)[q]? = some d → d ≠ ';') ∧
    (∀ (doc : List Char) (range fr : Range),
      (Formattable.fromTemplate doc range).formatting_range = some fr →
      ∃ p, fr.1 = range.1 + p ∧ (slice doc range)[p]? = some ':' ∧
        ∀ q, q < p → ∀ d, (slice doc range)[q]? = some d → d ≠ ':') := by
  constructor
  · intro doc range stmt f h
    simp only [TemplateExpression.tryFrom] at h
    cases hfind : rfind (fun c => c = ';') (slice doc range) with
    | none =>
      rw [hfind] at h
      by_cases htrim : trimIsEmpty (slice doc range) = true <;> simp [htrim] at h
    | some p =>
      rw [hfind] at h
      by_cases htrim : trimIsEmpty ((slice doc range).drop (p + 1)) = true
      · simp [htrim] at h
      · simp only [htrim, Bool.false_eq_true, if_false, Except.ok.injEq,
          TemplateExpression.codeBlockWithFormattable.injEq] at h
        obtain ⟨hstmt, _⟩ := h
        obtain ⟨⟨c, hc, hpc⟩, hmax⟩ := rfind_spec (fun c => c = ';') (slice doc range) p hfind
        have hcsemi : c = ';' := by simpa using hpc
        subst hcsemi
        refine ⟨by rw [← hstmt], p, by rw [← hstmt], hc, ?_⟩
        intro q hq d hd hdsemi
        have := hmax q hq d hd
        subst hdsemi
        simp at this
  · intro doc range fr h
    simp only [Formattable.fromTemplate] at h
    cases hfind : lfind (fun c => c = ':') (slice doc range) with
    | none => rw [hfind] at h; simp at h
    | some p =>
      rw [hfind] at h
      simp only [Option.some.injEq] at h
      obtain ⟨⟨c, hc, hpc⟩, hmin⟩ := lfind_spec (fun c => c = ':') (slice doc range) p hfind
      have hccolon : c = ':' := by simpa using hpc
      subst hccolon
      refine ⟨p, by rw [← h], hc, ?_⟩
      intro q hq d hd hdcolon
      have := hmin q hq d hd
      subst hdcolon
      simp at this

/-- The document `"{let x = 15; x:?}"`. -/
def docClassifier : List Char :=
  ['{', 'l', 'e', 't', ' ', 'x', ' ', '=', ' ', '1', '5', ';', ' ', 'x', ':', '?', '}']

/-- Witness for C9 on the block interior `"let x = 15; x:?"` (range
`(1, 16)` of `docClassifier`): the statement split lands on the semicolon at
relative index 10 (statement range `(1, 12)`), and the format split of the
value `" x:?"` lands on the colon at relative index 2 (format range
`(14, 16)`). -/
theorem c9_raw_split_witness :
    ((1 : Nat) = 1 ∧
      ∃ p, (12 : Nat) = 1 + p + 1 ∧ (slice docClassifier (1, 16))[p]? = some ';' ∧
        ∀ q, p < q → ∀ d, (slice docClassifier (1, 16))[q]? = some d → d ≠ ';') ∧
    (∃ p, (14 : Nat) = 12 + p ∧ (slice docClassifier (12, 16))[p]? = some ':' ∧
      ∀ q, q < p → ∀ d, (slice docClassifier (12, 16))[q]? = some d → d ≠ ':') :=
  ⟨c9_raw_split.1 docClassifier (1, 16) (1, 12) ⟨(12, 14), some (14, 16)⟩ rfl,
   c9_raw_split.2 docClassifier (12, 16) (14, 16) rfl⟩

end Remplate
